import Mathlib

/-!
Verification of the orphan-detection core of md-prune-image.

The Rust sources are shallowly embedded as follows.

* Strings (Rust `str`/`String`) are modelled as `List Char`, read as byte
  strings: each `Char` holds one byte of the UTF-8 representation.  All
  string operations the program performs (splitting on ASCII separators,
  ASCII prefix tests, whitespace trimming, the two regular expressions,
  path joining with '/') act bytewise, so the byte-level view is faithful;
  every concrete input used below is ASCII, where bytes and characters
  coincide.
* The filesystem is an abstract, pure structure `FileSystem`: a
  canonicalization partial function (Rust `Path::canonicalize`, which
  fails for nonexistent files), a file-reading partial function
  (`fs::read_to_string`), and the list of regular files produced by the
  directory walk (`walkdir`, `follow_links(false)`, files only).
* Rust `HashSet<PathBuf>` values are modelled as `Finset (List Char)`.
  Iterating a std `HashSet` (as `difference(..).collect::<Vec<_>>()` does
  in `scan_for_orphans`) yields its elements in an order determined by the
  per-process random `RandomState` hash seed; this run-dependent order is
  modelled by an explicit enumeration function `iter` constrained by
  `ValidHashIter` (right membership, no duplicates).
* The two regular expressions of `parser.rs` are translated into explicit
  backtracking matchers with the leftmost-first semantics of the `regex`
  crate (lazy and greedy quantifiers, ordered alternation); both patterns
  only quantify over single-character classes, which the combinators below
  implement exactly.
-/

namespace MdPrune

/-- Byte strings: the model of Rust `str` / `String` (one `Char` per byte). -/
abbrev Str := List Char

/-- Filesystem paths (Rust `Path` / `PathBuf`), stored as their byte string. -/
abbrev FsPath := Str

/-- Shorthand turning a Lean string literal into the byte-string model. -/
def str (s : String) : Str := s.data

/-! ### Character classes used by the two regular expressions -/

/-- ASCII whitespace, the bytes matched by the regex class `\s` and trimmed
by `str::trim` (the concrete inputs below contain no non-ASCII whitespace). -/
def isWs (c : Char) : Bool :=
  c = ' ' ∨ c = '\t' ∨ c = '\n' ∨ c = '\x0b' ∨ c = '\x0c' ∨ c = '\r'

/-- The regex metacharacter `.`: any character except a newline. -/
def notNl (c : Char) : Bool := c ≠ '\n'

/-- A quote character, the regex class `["']`. -/
def isQuote (c : Char) : Bool := c = '"' ∨ c = '\''

/-! ### Backtracking regex combinators

Both patterns in `parser.rs` quantify only over single-character classes,
so lazy/greedy quantifiers reduce to choosing how many class characters to
consume before running the continuation; backtracking tries the counts in
increasing (lazy) or decreasing (greedy) order and keeps the first success.
Continuations receive the consumed characters and the remaining input. -/

/-- Lazy quantifier loop: try the continuation at the current split first,
then extend the consumed run by one class character.  `acc` holds the
consumed characters in reverse. -/
def lazyRunGo (p : Char → Bool) (k : List Char → List Char → Option β) :
    List Char → List Char → Option β
  | acc, [] => k acc.reverse []
  | acc, c :: rest =>
    match k acc.reverse (c :: rest) with
    | some b => some b
    | none => if p c then lazyRunGo p k (c :: acc) rest else none

/-- Lazy star over a character class (the regex `cls*?`). -/
def lazyStar (p : Char → Bool) (s : List Char)
    (k : List Char → List Char → Option β) : Option β :=
  lazyRunGo p k [] s

/-- Lazy plus over a character class (the regex `cls+?`). -/
def lazyPlus (p : Char → Bool) (s : List Char)
    (k : List Char → List Char → Option β) : Option β :=
  match s with
  | c :: rest => if p c then lazyRunGo p k [c] rest else none
  | [] => none

/-- Greedy quantifier loop: extend the consumed run as far as possible
first, trying the continuation at shorter splits only on failure. -/
def greedyRunGo (p : Char → Bool) (k : List Char → List Char → Option β) :
    List Char → List Char → Option β
  | acc, [] => k acc.reverse []
  | acc, c :: rest =>
    if p c then
      match greedyRunGo p k (c :: acc) rest with
      | some b => some b
      | none => k acc.reverse (c :: rest)
    else k acc.reverse (c :: rest)

/-- Greedy plus over a character class (the regex `cls+`). -/
def greedyPlus (p : Char → Bool) (s : List Char)
    (k : List Char → List Char → Option β) : Option β :=
  match s with
  | c :: rest => if p c then greedyRunGo p k [c] rest else none
  | [] => none

/-- Match a single literal character. -/
def lit (c : Char) (s : List Char) (k : List Char → Option β) : Option β :=
  match s with
  | x :: rest => if x = c then k rest else none
  | [] => none

/-- Match a literal string. -/
def litStr (t : List Char) (s : List Char) (k : List Char → Option β) :
    Option β :=
  if t.isPrefixOf s then k (s.drop t.length) else none

/-- Match one character from a class given by a predicate. -/
def oneOf (p : Char → Bool) (s : List Char) (k : List Char → Option β) :
    Option β :=
  match s with
  | x :: rest => if p x then k rest else none
  | [] => none

/-! ### The markdown image pattern

parser.rs line 18 compiles the pattern (in Rust raw-string syntax)

  !\[.*?]\(([^)]+?)(?:\s+["'].*?["'])?\)

`imgMatchAt` is its translation: attempt a match anchored at the start of
`s`; on success return the text of capture group 1 together with the input
remaining after the whole match. -/

/-- The capture class `[^)]`. -/
def notParen (c : Char) : Bool := c ≠ ')'

/-- The optional title group `(?:\s+["'].*?["'])` followed by `\)`. -/
def imgTitleTail (cap : Str) (s6 : Str) : Option (Str × Str) :=
  greedyPlus isWs s6 fun _ s7 =>
  oneOf isQuote s7 fun s8 =>
  lazyStar notNl s8 fun _ s9 =>
  oneOf isQuote s9 fun s10 =>
  lit ')' s10 fun s11 => some (cap, s11)

/-- After the lazy capture `([^)]+?)`: the greedy optional title branch,
then the bare `\)`. -/
def imgAfterCapture (cap : Str) (s6 : Str) : Option (Str × Str) :=
  match imgTitleTail cap s6 with
  | some r => some r
  | none => lit ')' s6 fun s7 => some (cap, s7)

/-- The part of the pattern after the lazy alt text: `]\(` then the
capture and its continuation. -/
def imgBody (s3 : Str) : Option (Str × Str) :=
  lit ']' s3 fun s4 =>
  lit '(' s4 fun s5 =>
  lazyPlus notParen s5 imgAfterCapture

def imgMatchAt (s : Str) : Option (Str × Str) :=
  lit '!' s fun s1 =>
  lit '[' s1 fun s2 =>
  lazyStar notNl s2 fun _ s3 => imgBody s3

/-- The HTML image pattern of parser.rs line 21,

  <img[^>]+src=["']([^"']+)["']

translated like `imgMatchAt`. -/
def htmlMatchAt (s : Str) : Option (Str × Str) :=
  lit '<' s fun s1 =>
  litStr (str "img") s1 fun s2 =>
  greedyPlus (fun c => c ≠ '>') s2 fun _ s3 =>
  litStr (str "src=") s3 fun s4 =>
  oneOf isQuote s4 fun s5 =>
  greedyPlus (fun c => ¬ isQuote c) s5 fun cap s6 =>
  oneOf isQuote s6 fun s7 => some (cap, s7)

/-- One step of `captures_iter`: on a match at the current position,
yield the capture and resume after the matched text; otherwise advance
one character (stopping at the end of input). -/
def capturesStep (rec : Str → List Str) :
    Option (Str × Str) → Str → List Str
  | some (cap, rest), _ => cap :: rec rest
  | none, [] => []
  | none, _ :: t2 => rec t2

/-- `captures_iter`: scan left to right, yield the capture of each
non-overlapping leftmost match and resume after the matched text.  The
fuel argument bounds the scan by the input length; every step either
consumes the matched text (nonempty for both patterns) or one character. -/
def capturesGo (matchAt : Str → Option (Str × Str)) : Nat → Str → List Str
  | 0, _ => []
  | fuel + 1, s => capturesStep (capturesGo matchAt fuel) (matchAt s) s

/-- All capture-group-1 texts of the markdown image pattern, in order. -/
def imgCaptures (s : Str) : List Str :=
  capturesGo imgMatchAt (s.length + 1) s

/-- All capture-group-1 texts of the HTML image pattern, in order. -/
def htmlCaptures (s : Str) : List Str :=
  capturesGo htmlMatchAt (s.length + 1) s

/-! ### Percent decoding (parser.rs lines 66-69)

`percent_decode_str(img_path).decode_utf8()` replaces every `%XY` triple
(two hex digits) of the byte string by the byte `0xXY`, then checks that
the resulting byte sequence is valid UTF-8; on invalid UTF-8 the raw
string is used unchanged.  In the byte-string model the decoded string is
the decoded byte sequence itself. -/

/-- Value of a hexadecimal digit, as `percent-encoding` accepts them. -/
def hexVal (c : Char) : Option Nat :=
  if '0' ≤ c ∧ c ≤ '9' then some (c.toNat - 48)
  else if 'a' ≤ c ∧ c ≤ 'f' then some (c.toNat - 87)
  else if 'A' ≤ c ∧ c ≤ 'F' then some (c.toNat - 55)
  else none

/-- Percent-decode a byte string into a byte sequence: each `%` followed
by two hex digits becomes one byte, everything else is copied. -/
def percentDecodeBytes : Str → List Nat
  | '%' :: h1 :: h2 :: rest =>
    match hexVal h1, hexVal h2 with
    | some a, some b => (16 * a + b) :: percentDecodeBytes rest
    | _, _ => '%'.toNat :: percentDecodeBytes (h1 :: h2 :: rest)
  | c :: rest => c.toNat :: percentDecodeBytes rest
  | [] => []

/-- Is a byte a UTF-8 continuation byte (`0x80..0xBF`)? -/
def isCont (b : Nat) : Bool := 0x80 ≤ b ∧ b ≤ 0xBF

/-- UTF-8 validity of a byte sequence (the check performed by
`decode_utf8`), including the overlong-form and surrogate restrictions. -/
def utf8ValidBytes : List Nat → Bool
  | [] => true
  | b :: rest =>
    if b < 0x80 then utf8ValidBytes rest
    else if 0xC2 ≤ b ∧ b ≤ 0xDF then
      match rest with
      | b2 :: r2 => isCont b2 && utf8ValidBytes r2
      | [] => false
    else if 0xE0 ≤ b ∧ b ≤ 0xEF then
      match rest with
      | b2 :: b3 :: r2 =>
        (if b = 0xE0 then decide (0xA0 ≤ b2 ∧ b2 ≤ 0xBF)
         else if b = 0xED then decide (0x80 ≤ b2 ∧ b2 ≤ 0x9F)
         else isCont b2) && isCont b3 && utf8ValidBytes r2
      | _ => false
    else if 0xF0 ≤ b ∧ b ≤ 0xF4 then
      match rest with
      | b2 :: b3 :: b4 :: r2 =>
        (if b = 0xF0 then decide (0x90 ≤ b2 ∧ b2 ≤ 0xBF)
         else if b = 0xF4 then decide (0x80 ≤ b2 ∧ b2 ≤ 0x8F)
         else isCont b2) && isCont b3 && isCont b4 && utf8ValidBytes r2
      | _ => false
    else false

/-- The decoded string used by `resolve_image_path`: the percent-decoded
byte sequence when it is valid UTF-8, otherwise the raw string unchanged
(`unwrap_or_else` on the `decode_utf8` failure). -/
def decodeOr (raw : Str) : Str :=
  let bs := percentDecodeBytes raw
  if utf8ValidBytes bs then bs.map Char.ofNat else raw

/-! ### Path operations (Rust `std::path`, Unix semantics) -/

/-- `Path::is_absolute`: the path begins with the separator. -/
def isAbsolute (p : FsPath) : Bool :=
  match p with
  | c :: _ => c = '/'
  | [] => false

/-- `Path::join`: an absolute argument replaces the base; otherwise the
argument is appended after a separator (none added after an empty base or
a base already ending in the separator). -/
def pathJoin (b : FsPath) (s : Str) : FsPath :=
  if isAbsolute s then s
  else if b = [] then s
  else if b.getLast? = some '/' then b ++ s
  else b ++ '/' :: s

/-- Split a path into its `/`-separated components. -/
def pathComponents (p : FsPath) : List Str := p.splitOn '/'

/-- `Path::starts_with`: component-wise prefix (so `/a` is a prefix of
`/a/b` but not of `/ab`). -/
def pathStartsWith (base p : FsPath) : Bool :=
  (pathComponents base).isPrefixOf (pathComponents p)

/-- `Path::parent`: drop the final component; `None` for the root and the
empty path. -/
def parentOf (p : FsPath) : Option FsPath :=
  if p = [] ∨ p = ['/'] then none
  else
    let r1 : FsPath := ((p.reverse.dropWhile (· ≠ '/'))).reverse
    if r1 = [] then some []
    else if r1 = ['/'] then some ['/']
    else some r1.dropLast

/-- `Path::file_name` as used here: the text after the final separator. -/
def fileNameOf (p : FsPath) : Str :=
  (p.reverse.takeWhile (· ≠ '/')).reverse

/-- `Path::extension`: the text after the final `.` of the file name,
provided that dot is preceded by a nonempty stem (so `.png` has no
extension). -/
def extensionOf (p : FsPath) : Option Str :=
  let name := fileNameOf p
  let revExt := name.reverse.takeWhile (· ≠ '.')
  if revExt.length + 2 ≤ name.length then some revExt.reverse else none

/-- `Path::file_stem`: the file name minus the extension and its dot. -/
def fileStemOf (p : FsPath) : Str :=
  let name := fileNameOf p
  match extensionOf p with
  | some ext => name.take (name.length - ext.length - 1)
  | none => name

/-- ASCII lowercasing, the effect of `to_lowercase` /
`eq_ignore_ascii_case` on the ASCII extensions compared here. -/
def toLowerAscii (s : Str) : Str :=
  s.map fun c => if 'A' ≤ c ∧ c ≤ 'Z' then Char.ofNat (c.toNat + 32) else c

/-- `str::trim`: remove leading and trailing whitespace. -/
def trim (s : Str) : Str :=
  ((s.dropWhile isWs).reverse.dropWhile isWs).reverse

/-! ### The filesystem abstraction -/

/-- The read-only filesystem effects the scan uses: `Path::canonicalize`
(fails for paths that do not exist), `fs::read_to_string` (fails for
unreadable files), and the list of regular files found by the `walkdir`
traversal of the scan root (`follow_links(false)`, errors skipped, files
only). -/
structure FileSystem where
  canon : FsPath → Option FsPath
  readFile : FsPath → Option Str
  walkFiles : List FsPath

/-! ### The path resolver (parser.rs lines 54-115) -/

/-- `is_url` (parser.rs lines 54-59). -/
def isUrl (p : Str) : Bool :=
  (str "http://").isPrefixOf p ∨ (str "https://").isPrefixOf p ∨
    (str "//").isPrefixOf p ∨ (str "data:").isPrefixOf p

/-- `try_resolve_path` (parser.rs lines 91-115).  Each block canonicalizes
its candidate; when that succeeds the base directory is canonicalized for
the `starts_with` test, and a failure of that canonicalization is the `?`
operator returning `None` from the whole function.  A candidate whose
canonical form does not start with the canonical base falls through to the
next block. -/
def tryResolvePath (fs : FileSystem) (imgPath : Str)
    (markdownDir baseDir : FsPath) : Option FsPath :=
  let step3 : Option FsPath :=
    if isAbsolute imgPath then
      match fs.canon imgPath with
      | some c =>
        match fs.canon baseDir with
        | none => none
        | some cb => if pathStartsWith cb c then some c else none
      | none => none
    else none
  let step2 : Option FsPath :=
    match fs.canon (pathJoin baseDir imgPath) with
    | some c =>
      match fs.canon baseDir with
      | none => none
      | some cb => if pathStartsWith cb c then some c else step3
    | none => step3
  match fs.canon (pathJoin markdownDir imgPath) with
  | some c =>
    match fs.canon baseDir with
    | none => none
    | some cb => if pathStartsWith cb c then some c else step2
  | none => step2

/-- The first piece of `str::split(sep)` — the text before the first
separator (the whole string when the separator is absent). -/
def splitFirst (sep : Char) : Str → Str
  | [] => []
  | c :: rest => if c = sep then [] else c :: splitFirst sep rest

/-- The fragment/query stripping of `resolve_image_path` (parser.rs lines
71-75): `split('#').next()` then `split('?').next()` on the result (the
`unwrap_or` branch is dead since `split` always yields a first piece). -/
def cleanOf (s : Str) : Str :=
  splitFirst '?' (splitFirst '#' s)

/-- `resolve_image_path` (parser.rs lines 61-89): percent-decode, strip
the fragment/query, try the three resolution bases with the cleaned
decoded string, and if that fails and the cleaned decoded string differs
from the original string, retry with the original string stripped of its
fragment/query. -/
def resolveImagePath (fs : FileSystem) (imgPath : Str)
    (markdownDir baseDir : FsPath) : Option FsPath :=
  let decodedPath := decodeOr imgPath
  let cleanPath := cleanOf decodedPath
  match tryResolvePath fs cleanPath markdownDir baseDir with
  | some p => some p
  | none =>
    if cleanPath ≠ imgPath then
      tryResolvePath fs (cleanOf imgPath) markdownDir baseDir
    else none

/-! ### The reference extractor (parser.rs lines 8-52) -/

/-- The per-capture processing of the two extraction loops: trim the
captured target, skip URL-like references, otherwise resolve and insert a
successful resolution into the accumulating set. -/
def refContribution (fs : FileSystem) (rawCap : Str)
    (markdownDir baseDir : FsPath) : Option FsPath :=
  let imgPath := trim rawCap
  if isUrl imgPath then none
  else resolveImagePath fs imgPath markdownDir baseDir

/-- Fold one extraction loop over a list of captured targets. -/
def processCaps (fs : FileSystem) (caps : List Str)
    (markdownDir baseDir : FsPath) (acc : Finset FsPath) : Finset FsPath :=
  caps.foldl
    (fun a cap =>
      match refContribution fs cap markdownDir baseDir with
      | some r => insert r a
      | none => a)
    acc

/-- `extract_image_references` (parser.rs lines 8-52): read the file
(failing with `Error::ReadFile` carrying the path), take the parent
directory of the markdown file (falling back to the base directory), and
union the resolved targets of both patterns.  The two constant regex
patterns always compile, so `Regex::new` never errors here. -/
def extractImageReferences (fs : FileSystem) (markdownPath baseDir : FsPath) :
    Except FsPath (Finset FsPath) :=
  match fs.readFile markdownPath with
  | none => .error markdownPath
  | some content =>
    let markdownDir := (parentOf markdownPath).getD baseDir
    let refs1 := processCaps fs (imgCaptures content) markdownDir baseDir ∅
    .ok (processCaps fs (htmlCaptures content) markdownDir baseDir refs1)

/-! ### The scanner (scanner.rs lines 8-53) -/

/-- The configured image-extension set: split the `--extensions` value on
commas, trim and lowercase each piece (scanner.rs lines 9-13). -/
def extensionList (extensions : Str) : List Str :=
  (extensions.splitOn ',').map fun s => toLowerAscii (trim s)

/-- Does a walked file pass the image filter (scanner.rs lines 16-22)? -/
def isImageFile (exts : List Str) (p : FsPath) : Bool :=
  match extensionOf p with
  | some e => toLowerAscii e ∈ exts
  | none => false

/-- Does a walked file pass the markdown filter (scanner.rs lines 31-37)? -/
def isMarkdownFile (p : FsPath) : Bool :=
  match extensionOf p with
  | some e => toLowerAscii e = str "md" ∨ toLowerAscii e = str "markdown"
  | none => false

/-- The image set: walked files passing the extension filter, mapped
through canonicalization, failures dropped (scanner.rs lines 15-24). -/
def allImages (fs : FileSystem) (exts : List Str) : Finset FsPath :=
  ((fs.walkFiles.filter (isImageFile exts)).filterMap fs.canon).toFinset

/-- One step of accumulating the referenced set: a markdown file whose
extraction succeeds contributes its reference set, a file whose extraction
fails contributes nothing (`.ok()` + `filter_map`, scanner.rs line 38). -/
def refUnion (fs : FileSystem) (baseDir : FsPath) (acc : Finset FsPath)
    (m : FsPath) : Finset FsPath :=
  match extractImageReferences fs m baseDir with
  | .ok s => acc ∪ s
  | .error _ => acc

/-- The referenced set accumulated over a list of markdown files
(scanner.rs lines 26-40). -/
def referencedImages (fs : FileSystem) (baseDir : FsPath)
    (mds : List FsPath) : Finset FsPath :=
  mds.foldl (refUnion fs baseDir) ∅

/-- The command-line options of cli.rs (the `action` argument group). -/
structure CliModel where
  directory : FsPath
  recycle : Bool
  delete : Bool
  moveDir : Option FsPath
  extensions : Str

/-- A `HashSet` enumeration order.  `scan_for_orphans` materializes the
set difference by iterating a std `HashSet`, whose order is determined by
the per-process random `RandomState` hash seed; a run of the program
corresponds to a choice of enumeration function. -/
def ValidHashIter (iter : Finset FsPath → List FsPath) : Prop :=
  ∀ s : Finset FsPath, (iter s).Nodup ∧ ∀ p, p ∈ iter s ↔ p ∈ s

/-- `scan_for_orphans` (scanner.rs lines 8-45): collect the image set and
the referenced set from the walk, and enumerate their difference. -/
def scanForOrphans (iter : Finset FsPath → List FsPath) (fs : FileSystem)
    (cli : CliModel) : List FsPath :=
  let exts := extensionList cli.extensions
  let images := allImages fs exts
  let referenced :=
    referencedImages fs cli.directory (fs.walkFiles.filter isMarkdownFile)
  iter (images \ referenced)

/-! ### Action selection (cli.rs lines 25-42) -/

/-- The `Action` enum of cli.rs. -/
inductive ActionModel where
  | delete : ActionModel
  | recycle : ActionModel
  | move : FsPath → ActionModel
deriving DecidableEq

/-- `Cli::action` (cli.rs lines 32-42): `--delete` first, then `--move`,
defaulting to `Recycle`. -/
def cliAction (cli : CliModel) : ActionModel :=
  if cli.delete then .delete
  else
    match cli.moveDir with
    | some dir => .move dir
    | none => .recycle

/-! ### Move-conflict renaming (actions.rs lines 38-53 and 62-84)

`generate_unique_filename` probes `stem_N.ext` for N = 1, 2, ... until a
name that does not exist is found.  Existence in the target directory is
modelled by membership in the finite list `existing` of occupied paths,
which also bounds the search: among `existing.length + 1` distinct
candidate names at least one is free. -/

/-- The decimal digit characters. -/
def digitChar (d : Nat) : Char := Char.ofNat (48 + d)

/-- Decimal rendering of a counter, as `format!("{}", counter)` prints it
(most significant digit first, no sign, no padding).  The structural fuel
argument starts at the number itself, which bounds the digit count. -/
def natToStr (n : Nat) : Str := natToStrGo n n []
where
  natToStrGo : Nat → Nat → Str → Str
    | 0, n, acc => digitChar n :: acc
    | fuel + 1, n, acc =>
      if n < 10 then digitChar n :: acc
      else natToStrGo fuel (n / 10) (digitChar (n % 10) :: acc)

/-- The candidate file name for counter `n` (actions.rs lines 72-76). -/
def suffixName (stem ext : Str) (n : Nat) : Str :=
  if ext = [] then stem ++ '_' :: natToStr n
  else stem ++ '_' :: natToStr n ++ '.' :: ext

/-- The probe loop of `generate_unique_filename`, with explicit fuel. -/
def genUniqueGo (existing : List FsPath) (parent stem ext : Str) :
    Nat → Nat → FsPath
  | 0, n => pathJoin parent (suffixName stem ext n)
  | fuel + 1, n =>
    let cand := pathJoin parent (suffixName stem ext n)
    if cand ∈ existing then genUniqueGo existing parent stem ext fuel (n + 1)
    else cand

/-- `generate_unique_filename` (actions.rs lines 62-84). -/
def generateUniqueFilename (existing : List FsPath) (path : FsPath) :
    FsPath :=
  let parent := (parentOf path).getD []
  let stem := fileStemOf path
  let ext := (extensionOf path).getD []
  genUniqueGo existing parent stem ext (existing.length + 1) 1

/-- The per-file move-destination choice of `execute_action`
(actions.rs lines 38-46): join the orphan's file name onto the target
directory and rename on collision. -/
def moveTargetFor (existing : List FsPath) (moveDir img : FsPath) : FsPath :=
  let target := pathJoin moveDir (fileNameOf img)
  if target ∈ existing then generateUniqueFilename existing target
  else target

/-! ### Specification-side definitions

The following definitions transcribe sentences of the specification (not
the code); each claim theorem below compares one of them with the
corresponding definition taken from the source. -/

/-- Spec wording for fragment/query removal: "Strip everything from the
first `#` or `?` onward". -/
def stripFragQuery (s : Str) : Str :=
  s.takeWhile fun c => ¬(c = '#' ∨ c = '?')

/-- Spec wording of the in-scope acceptance test for one candidate path:
"canonicalize; accept only if canonicalization succeeds AND the canonical
result starts with the canonicalized scanRoot". -/
def acceptCandidate (fs : FileSystem) (canonBase : FsPath)
    (cand : FsPath) : Option FsPath :=
  match fs.canon cand with
  | some c => if pathStartsWith canonBase c then some c else none
  | none => none

/-- First accepted candidate of an ordered list. -/
def firstAccepted (fs : FileSystem) (canonBase : FsPath) :
    List FsPath → Option FsPath
  | [] => none
  | cand :: rest =>
    match acceptCandidate fs canonBase cand with
    | some c => some c
    | none => firstAccepted fs canonBase rest

/-- Spec wording of resolution step 4: try, in order, the string resolved
relative to `markdownDir`, relative to `scanRoot`, and directly when it is
absolute; first acceptance wins. -/
def tryResolveSpec (fs : FileSystem) (s : Str)
    (markdownDir baseDir : FsPath) : Option FsPath :=
  match fs.canon baseDir with
  | none => none
  | some cb =>
    firstAccepted fs cb
      ([pathJoin markdownDir s, pathJoin baseDir s] ++
        if isAbsolute s then [s] else [])

/-- Spec wording of the whole resolution algorithm as claim C3 states it:
resolve with the decoded-and-stripped string; only if that fails and the
decoded string differs from the original raw string, retry with the
original string stripped of fragment/query; otherwise nothing. -/
def resolveImagePathSpec (fs : FileSystem) (rawRef : Str)
    (markdownDir baseDir : FsPath) : Option FsPath :=
  let decoded := decodeOr rawRef
  match tryResolveSpec fs (stripFragQuery decoded) markdownDir baseDir with
  | some p => some p
  | none =>
    if decoded ≠ rawRef then
      tryResolveSpec fs (stripFragQuery rawRef) markdownDir baseDir
    else none

/-- Spec wording of claim C6's target rule: "the text up to the first
unescaped `)`" — a backslash escapes the character after it. -/
def upToFirstUnescapedParen : Str → Str
  | '\\' :: c :: rest => '\\' :: c :: upToFirstUnescapedParen rest
  | ')' :: _ => []
  | c :: rest => c :: upToFirstUnescapedParen rest
  | [] => []

/-- Claim C7's view of `resolve_image_path`: both resolution attempts use
the single-pass prefix up to the first `#` or `?` of the decoded string,
respectively of the original string on the fallback attempt. -/
def resolveCleanView (fs : FileSystem) (rawRef : Str)
    (markdownDir baseDir : FsPath) : Option FsPath :=
  let decoded := decodeOr rawRef
  match tryResolvePath fs (stripFragQuery decoded) markdownDir baseDir with
  | some p => some p
  | none =>
    if stripFragQuery decoded ≠ rawRef then
      tryResolvePath fs (stripFragQuery rawRef) markdownDir baseDir
    else none



/-! ## Enumeration orders for the orphan `HashSet`

Two concrete enumeration orders, both legitimate `HashSet` iteration
behaviours (right membership, no duplicates): ascending lexicographic
order and its reverse.  Distinct program runs draw distinct random hash
seeds, so distinct enumeration orders of the same set model two runs on
identical input. -/

/-- Lexicographic comparison of byte strings. -/
def leB : Str → Str → Bool
  | [], _ => true
  | _ :: _, [] => false
  | a :: as, b :: bs => if a < b then true else if b < a then false else leB as bs

theorem leB_total : ∀ a b : Str, leB a b = true ∨ leB b a = true := by
  intro a
  induction a with
  | nil => intro b; left; rfl
  | cons x xs ih =>
    intro b
    cases b with
    | nil => right; rfl
    | cons y ys =>
      rcases lt_trichotomy x y with h | h | h
      · left; simp [leB, h]
      · subst h
        rcases ih ys with h2 | h2
        · left; simp [leB, lt_irrefl, h2]
        · right; simp [leB, lt_irrefl, h2]
      · right; simp [leB, h]

theorem leB_antisymm : ∀ {a b : Str}, leB a b = true → leB b a = true → a = b := by
  intro a
  induction a with
  | nil =>
    intro b _ h2
    cases b with
    | nil => rfl
    | cons y ys => simp [leB] at h2
  | cons x xs ih =>
    intro b h1 h2
    cases b with
    | nil => simp [leB] at h1
    | cons y ys =>
      rcases lt_trichotomy x y with h | h | h
      · simp [leB, h, not_lt.mpr h.le, ne_of_gt h] at h2
      · subst h
        simp only [leB, lt_irrefl, if_false] at h1 h2
        exact congrArg _ (ih h1 h2)
      · simp [leB, h, not_lt.mpr h.le, ne_of_gt h] at h1

theorem leB_trans : ∀ {a b c : Str},
    leB a b = true → leB b c = true → leB a c = true := by
  intro a
  induction a with
  | nil => intro b c _ _; rfl
  | cons x xs ih =>
    intro b c h1 h2
    cases b with
    | nil => simp [leB] at h1
    | cons y ys =>
      cases c with
      | nil => simp [leB] at h2
      | cons z zs =>
        rcases lt_trichotomy x y with hxy | hxy | hxy
        · rcases lt_trichotomy y z with hyz | hyz | hyz
          · simp [leB, lt_trans hxy hyz]
          · subst hyz; simp [leB, hxy]
          · simp [leB, hyz, not_lt.mpr hyz.le, ne_of_gt hyz] at h2
        · subst hxy
          rcases lt_trichotomy x z with hyz | hyz | hyz
          · simp [leB, hyz]
          · subst hyz
            simp only [leB, lt_irrefl, if_false] at h1 h2 ⊢
            exact ih h1 h2
          · simp [leB, hyz, not_lt.mpr hyz.le, ne_of_gt hyz] at h2
        · simp [leB, hxy, not_lt.mpr hxy.le, ne_of_gt hxy] at h1

/-- Insert a path into a `leB`-sorted list. -/
def insertSorted (x : FsPath) : List FsPath → List FsPath
  | [] => [x]
  | y :: ys => if leB x y then x :: y :: ys else y :: insertSorted x ys

/-- Insertion sort by `leB`. -/
def isort : List FsPath → List FsPath
  | [] => []
  | x :: xs => insertSorted x (isort xs)

theorem insertSorted_perm (x : FsPath) :
    ∀ l : List FsPath, List.Perm (insertSorted x l) (x :: l) := by
  intro l
  induction l with
  | nil => rfl
  | cons y ys ih =>
    by_cases h : leB x y = true
    · simp [insertSorted, h]
    · simp only [insertSorted, h, if_false]
      exact (ih.cons y).trans (List.Perm.swap x y ys)

theorem isort_perm : ∀ l : List FsPath, List.Perm (isort l) l := by
  intro l
  induction l with
  | nil => rfl
  | cons x xs ih => exact (insertSorted_perm x (isort xs)).trans (ih.cons x)

theorem insertSorted_comm (x y : FsPath) :
    ∀ t : List FsPath,
      insertSorted x (insertSorted y t) = insertSorted y (insertSorted x t) := by
  intro t
  induction t with
  | nil =>
    by_cases hxy : leB x y = true <;> by_cases hyx : leB y x = true
    · cases leB_antisymm hxy hyx; rfl
    · simp [insertSorted, hxy, hyx]
    · simp [insertSorted, hxy, hyx]
    · rcases leB_total x y with h | h
      · exact absurd h hxy
      · exact absurd h hyx
  | cons z zs ih =>
    by_cases hxz : leB x z = true <;> by_cases hyz : leB y z = true
    · by_cases hxy : leB x y = true <;> by_cases hyx : leB y x = true
      · cases leB_antisymm hxy hyx; rfl
      · simp [insertSorted, hxy, hyx, hxz, hyz]
      · simp [insertSorted, hxy, hyx, hxz, hyz]
      · rcases leB_total x y with h | h
        · exact absurd h hxy
        · exact absurd h hyx
    · have hyx : ¬ leB y x = true := fun h => hyz (leB_trans h hxz)
      simp [insertSorted, hxz, hyz, hyx]
    · have hxy : ¬ leB x y = true := fun h => hxz (leB_trans h hyz)
      simp [insertSorted, hxz, hyz, hxy]
    · simp [insertSorted, hxz, hyz, ih]

theorem isort_perm_eq {l1 l2 : List FsPath} (h : List.Perm l1 l2) :
    isort l1 = isort l2 := by
  induction h with
  | nil => rfl
  | cons x _ ih => simp [isort, ih]
  | swap x y l => simp [isort, insertSorted_comm]
  | trans _ _ ih1 ih2 => exact ih1.trans ih2

/-- Enumerate a path multiset in ascending `leB` order (a computable
replacement for `Multiset.sort`, which does not reduce in the kernel). -/
def msortLe (m : Multiset FsPath) : List FsPath :=
  Quot.liftOn m isort fun _ _ h => isort_perm_eq h

theorem msortLe_perm (m : Multiset FsPath) : (msortLe m : Multiset FsPath) = m := by
  induction m using Quot.ind with
  | _ l => exact Quot.sound (isort_perm l)

/-- Enumerate a path set in ascending lexicographic order. -/
def iterSorted (s : Finset FsPath) : List FsPath :=
  msortLe s.val

/-- Enumerate a path set in descending lexicographic order. -/
def iterRev (s : Finset FsPath) : List FsPath :=
  (msortLe s.val).reverse

theorem iterSorted_nodup (s : Finset FsPath) : (iterSorted s).Nodup := by
  have h : ((iterSorted s : List FsPath) : Multiset FsPath).Nodup := by
    rw [iterSorted, msortLe_perm]; exact s.nodup
  exact h

theorem iterSorted_mem (s : Finset FsPath) (p : FsPath) :
    p ∈ iterSorted s ↔ p ∈ s := by
  have h : (p ∈ iterSorted s) = (p ∈ ((iterSorted s : List FsPath) : Multiset FsPath)) := by
    simp
  rw [show (p ∈ s) ↔ p ∈ s.val from Iff.rfl, ← msortLe_perm s.val]
  simp [iterSorted]

theorem iterSorted_valid : ValidHashIter iterSorted := by
  intro s
  exact ⟨iterSorted_nodup s, iterSorted_mem s⟩

theorem iterRev_valid : ValidHashIter iterRev := by
  intro s
  refine ⟨List.nodup_reverse.mpr (iterSorted_nodup s), fun p => ?_⟩
  rw [iterRev, List.mem_reverse]
  exact iterSorted_mem s p

/-! ## C1: the orphan list is the pure set difference -/

/-- C1: for every filesystem (hence every image set and referenced set)
and every valid `HashSet` enumeration, the orphan list produced by
`scan_for_orphans` contains exactly the paths that are in the image set
and not in the referenced set — the pure difference `images − referenced`
— each exactly once. -/
theorem c1_orphans_are_set_difference
    (iter : Finset FsPath → List FsPath) (hiter : ValidHashIter iter)
    (fs : FileSystem) (cli : CliModel) :
    (∀ p, p ∈ scanForOrphans iter fs cli ↔
      p ∈ allImages fs (extensionList cli.extensions) ∧
        p ∉ referencedImages fs cli.directory
          (fs.walkFiles.filter isMarkdownFile)) ∧
    (scanForOrphans iter fs cli).Nodup := by
  constructor
  · intro p
    rw [scanForOrphans, (hiter _).2 p, Finset.mem_sdiff]
  · exact (hiter _).1

/-! ## Concrete witness world

A tiny filesystem: scan root `/r` containing images `a.png`, `b.png` and a
markdown file `doc.md` that references `a.png`.  Canonicalization is the
identity on the paths that exist and fails elsewhere. -/

/-- Canonicalization map of the witness filesystem. -/
def canonA (p : FsPath) : Option FsPath :=
  if p = str "/r" ∨ p = str "/r/a.png" ∨ p = str "/r/b.png" ∨
      p = str "/r/doc.md" then some p
  else none

/-- Witness filesystem: two images, one markdown file referencing `a.png`. -/
def fsA : FileSystem where
  canon := canonA
  readFile := fun p =>
    if p = str "/r/doc.md" then some (str "![x](a.png)") else none
  walkFiles := [str "/r/a.png", str "/r/b.png", str "/r/doc.md"]

/-- Witness CLI options: scan `/r` with the default extension list. -/
def cliA : CliModel where
  directory := str "/r"
  recycle := false
  delete := false
  moveDir := none
  extensions := str "jpg,jpeg,png,gif,bmp,svg,webp"

/-- C1 witness: in the concrete world the orphan list is exactly the
unreferenced image `b.png`. -/
theorem c1_orphans_are_set_difference_witness :
    str "/r/b.png" ∈ scanForOrphans iterSorted fsA cliA ∧
      str "/r/b.png" ∈ allImages fsA (extensionList cliA.extensions) ∧
      str "/r/b.png" ∉ referencedImages fsA cliA.directory
        (fsA.walkFiles.filter isMarkdownFile) :=
  have h := c1_orphans_are_set_difference iterSorted iterSorted_valid fsA cliA
  ⟨(h.1 (str "/r/b.png")).mpr ⟨by decide, by decide⟩, by decide, by decide⟩

/-! ## C2: order stability across runs -/

/-- A second witness filesystem: two images, no markdown, so both images
are orphans and the orphan set has two elements. -/
def fsB : FileSystem where
  canon := fun p =>
    if p = str "/r" ∨ p = str "/r/a.png" ∨ p = str "/r/b.png" then some p
    else none
  readFile := fun _ => none
  walkFiles := [str "/r/a.png", str "/r/b.png"]

/-- C2 counterexample: the claim that two runs on identical input return
the identical orphan sequence in the identical order is false.  The orphan
vector is collected from a std `HashSet` difference without sorting
(scanner.rs line 42), and the `HashSet` iteration order depends on the
per-process random `RandomState` hash seed, so two runs are two valid
enumeration orders of the same set.  On the identical input `fsB`/`cliA`
(two orphaned images, nothing else) the two valid enumerations below give
the sequences `[a.png, b.png]` and `[b.png, a.png]`. -/
theorem c2_counterexample :
    ValidHashIter iterSorted ∧ ValidHashIter iterRev ∧
      scanForOrphans iterSorted fsB cliA ≠ scanForOrphans iterRev fsB cliA :=
  ⟨iterSorted_valid, iterRev_valid, by decide⟩

/-- C2 (amended): two runs of the scan on identical input return orphan
sequences that are permutations of each other — the same paths, each
exactly once, with no guarantee on the order, which depends on the
run's hash seed. -/
theorem c2_amended_runs_agree_up_to_order
    (iter1 iter2 : Finset FsPath → List FsPath)
    (h1 : ValidHashIter iter1) (h2 : ValidHashIter iter2)
    (fs : FileSystem) (cli : CliModel) :
    List.Perm (scanForOrphans iter1 fs cli) (scanForOrphans iter2 fs cli) ∧
      ∀ p, p ∈ scanForOrphans iter1 fs cli ↔
        p ∈ scanForOrphans iter2 fs cli := by
  have hm : ∀ p, p ∈ scanForOrphans iter1 fs cli ↔
      p ∈ scanForOrphans iter2 fs cli := by
    intro p
    rw [scanForOrphans, scanForOrphans, (h1 _).2, (h2 _).2]
  exact ⟨(List.perm_ext_iff_of_nodup (h1 _).1 (h2 _).1).mpr hm, hm⟩

/-- C2 (amended) witness: the two concrete runs of the counterexample
input agree up to order. -/
theorem c2_amended_runs_agree_up_to_order_witness :
    List.Perm (scanForOrphans iterSorted fsB cliA)
      (scanForOrphans iterRev fsB cliA) ∧
      ∀ p, p ∈ scanForOrphans iterSorted fsB cliA ↔
        p ∈ scanForOrphans iterRev fsB cliA :=
  c2_amended_runs_agree_up_to_order iterSorted iterRev iterSorted_valid
    iterRev_valid fsB cliA

/-! ## C10: action selection -/

/-- C10: with neither `--delete` nor `--move` the selected action is
`Recycle`, and `--delete` takes precedence over a `--move` directory in
`Cli::action`. -/
theorem c10_action_selection :
    (∀ cli : CliModel, cli.delete = false → cli.moveDir = none →
      cliAction cli = ActionModel.recycle) ∧
    (∀ cli : CliModel, cli.delete = true → cliAction cli = ActionModel.delete) := by
  constructor
  · intro cli h1 h2
    simp [cliAction, h1, h2]
  · intro cli h1
    simp [cliAction, h1]

/-- A CLI value with both `--delete` and `--move` set. -/
def cliD : CliModel :=
  { cliA with delete := true, moveDir := some (str "/m") }

/-- C10 witness: the default case on `cliA` and the precedence case on
`cliD`. -/
theorem c10_action_selection_witness :
    cliA.delete = false ∧ cliA.moveDir = none ∧
      cliAction cliA = ActionModel.recycle ∧
      cliD.delete = true ∧ cliD.moveDir = some (str "/m") ∧
      cliAction cliD = ActionModel.delete :=
  ⟨rfl, rfl, c10_action_selection.1 cliA rfl rfl, rfl, rfl,
    c10_action_selection.2 cliD rfl⟩

/-! ## Resolver equivalence helpers (shared by several claims) -/

theorem tryResolvePath_eq_spec (fs : FileSystem) (s : Str)
    (mdDir base : FsPath) :
    tryResolvePath fs s mdDir base = tryResolveSpec fs s mdDir base := by
  unfold tryResolvePath tryResolveSpec
  cases hb : fs.canon base with
  | none =>
    cases hc1 : fs.canon (pathJoin mdDir s) <;>
      cases hc2 : fs.canon (pathJoin base s) <;>
      by_cases habs : isAbsolute s = true <;>
      cases hc3 : fs.canon s <;>
      simp [firstAccepted, acceptCandidate, hb, hc1, hc2, hc3, habs]
  | some cb =>
    cases hc1 : fs.canon (pathJoin mdDir s) <;>
      cases hc2 : fs.canon (pathJoin base s) <;>
      by_cases habs : isAbsolute s = true <;>
      cases hc3 : fs.canon s <;>
      simp [firstAccepted, acceptCandidate, hb, hc1, hc2, hc3, habs] <;>
      split_ifs <;> rfl

theorem splitFirst_eq_takeWhile (sep : Char) (s : Str) :
    splitFirst sep s = s.takeWhile (· ≠ sep) := by
  induction s with
  | nil => rfl
  | cons c t ih =>
    by_cases h : c = sep
    · simp [splitFirst, List.takeWhile, h]
    · simp [splitFirst, List.takeWhile, h, ih]

theorem cleanOf_eq_stripFragQuery (s : Str) :
    cleanOf s = stripFragQuery s := by
  induction s with
  | nil => rfl
  | cons c t ih =>
    by_cases h1 : c = '#'
    · subst h1
      simp [cleanOf, splitFirst, stripFragQuery, List.takeWhile_cons]
    · by_cases h2 : c = '?'
      · subst h2
        simp [cleanOf, splitFirst, stripFragQuery, List.takeWhile_cons, h1]
      · rw [show cleanOf (c :: t) = c :: cleanOf t by
            simp [cleanOf, splitFirst, h1, h2]]
        rw [show stripFragQuery (c :: t) = c :: stripFragQuery t by
            simp [stripFragQuery, List.takeWhile_cons, h1, h2]]
        exact congrArg _ ih

theorem stripFragQuery_all (s : Str) :
    ∀ c ∈ stripFragQuery s, ¬(c = '#' ∨ c = '?') := by
  intro c hc
  have := List.mem_takeWhile_imp hc
  simpa using this

theorem stripFragQuery_of_all {s : Str} (h : ∀ c ∈ s, ¬(c = '#' ∨ c = '?')) :
    stripFragQuery s = s := by
  rw [stripFragQuery, List.takeWhile_eq_self_iff.mpr]
  intro c hc
  simpa using h c hc

/-- The full extensional equality between `resolve_image_path` and the
specification's description of the resolution algorithm.  The only
syntactic difference is the fallback guard: the code compares the
decoded-and-stripped string with the raw string, the spec compares the
decoded string with the raw string; whenever the two guards disagree the
fallback attempt re-resolves the very same string and returns the same
result, so the functions agree everywhere. -/
theorem resolveImagePath_eq_spec (fs : FileSystem) (raw : Str)
    (mdDir base : FsPath) :
    resolveImagePath fs raw mdDir base =
      resolveImagePathSpec fs raw mdDir base := by
  unfold resolveImagePath resolveImagePathSpec
  dsimp only
  simp only [cleanOf_eq_stripFragQuery, tryResolvePath_eq_spec]
  cases htry : tryResolveSpec fs (stripFragQuery (decodeOr raw)) mdDir base with
  | some p => rfl
  | none =>
    by_cases h2 : decodeOr raw = raw
    · rw [h2] at htry ⊢
      by_cases h1 : stripFragQuery raw = raw
      · simp [htry, h1]
      · simp [htry, h1]
    · by_cases h1 : stripFragQuery (decodeOr raw) = raw
      · have hraw : stripFragQuery raw = raw := by
          rw [← h1]
          exact stripFragQuery_of_all (stripFragQuery_all (decodeOr raw))
        rw [h1] at htry
        simp [htry, h1, h2, hraw]
      · simp [h1, h2]

/-! ## C3: resolution candidate order and fallback precedence -/

/-- C3: for every raw reference string, resolution behaves exactly as the
ordered algorithm of the spec: the decoded-and-stripped string is tried
relative to `markdownDir`, then relative to `scanRoot`, then directly when
absolute, first acceptance winning; only when all of that fails and the
decoded string differs from the original raw string are the same three
bases retried with the original string stripped of fragment/query;
otherwise nothing is returned. -/
theorem c3_resolution_order_and_fallback (fs : FileSystem) (raw : Str)
    (mdDir base : FsPath) :
    resolveImagePath fs raw mdDir base =
      resolveImagePathSpec fs raw mdDir base :=
  resolveImagePath_eq_spec fs raw mdDir base

/-! ## C7: fragment/query stripping -/

/-- A filesystem for the concrete `pic.png?v=2#frag` example. -/
def fsC7 : FileSystem where
  canon := fun p =>
    if p = str "/r" ∨ p = str "/r/pic.png" then some p else none
  readFile := fun _ => none
  walkFiles := [str "/r/pic.png"]

/-- C7: the string handed to filesystem resolution is the prefix of the
decoded string (respectively, on the fallback attempt, of the original
string) up to the first `#` or `?`: the code's successive `split('#')` /
`split('?')` first pieces equal the single-pass prefix, resolution equals
the view that strips with that single pass, and concretely
`pic.png?v=2#frag` resolves to `pic.png`. -/
theorem c7_strip_fragment_and_query :
    (∀ s : Str, cleanOf s = stripFragQuery s) ∧
    (∀ (fs : FileSystem) (raw : Str) (mdDir base : FsPath),
      resolveImagePath fs raw mdDir base =
        resolveCleanView fs raw mdDir base) ∧
    resolveImagePath fsC7 (str "pic.png?v=2#frag") (str "/r") (str "/r") =
      some (str "/r/pic.png") := by
  refine ⟨cleanOf_eq_stripFragQuery, ?_, by decide⟩
  intro fs raw mdDir base
  unfold resolveImagePath resolveCleanView
  dsimp only
  simp only [cleanOf_eq_stripFragQuery]

/-! ## C4: resolved references are canonical and in scope -/

theorem firstAccepted_some {fs : FileSystem} {cb : FsPath} {l : List FsPath}
    {p : FsPath} (h : firstAccepted fs cb l = some p) :
    pathStartsWith cb p = true ∧ ∃ c ∈ l, fs.canon c = some p := by
  induction l with
  | nil => simp [firstAccepted] at h
  | cons c rest ih =>
    rw [firstAccepted] at h
    cases hacc : acceptCandidate fs cb c with
    | some q =>
      rw [hacc] at h
      cases h
      rw [acceptCandidate] at hacc
      cases hc : fs.canon c with
      | none =>
        simp only [hc] at hacc
        cases hacc
      | some cc =>
        simp only [hc] at hacc
        by_cases hst : pathStartsWith cb cc = true
        · rw [if_pos hst] at hacc
          cases hacc
          exact ⟨hst, c, by simp, hc⟩
        · rw [if_neg hst] at hacc; cases hacc
    | none =>
      rw [hacc] at h
      obtain ⟨hst, c', hc', hcanon⟩ := ih h
      exact ⟨hst, c', by simp [hc'], hcanon⟩

theorem firstAccepted_none {fs : FileSystem} {cb : FsPath} {l : List FsPath}
    (h : ∀ c ∈ l, ∀ cc, fs.canon c = some cc → pathStartsWith cb cc = false) :
    firstAccepted fs cb l = none := by
  induction l with
  | nil => rfl
  | cons c rest ih =>
    rw [firstAccepted]
    have hstep : acceptCandidate fs cb c = none := by
      rw [acceptCandidate]
      cases hc : fs.canon c with
      | none => rfl
      | some cc =>
        have := h c (by simp) cc hc
        simp [this]
    rw [hstep]
    exact ih fun c' hc' => h c' (by simp [hc'])

theorem tryResolveSpec_some {fs : FileSystem} {s : Str} {mdDir base p : FsPath}
    (h : tryResolveSpec fs s mdDir base = some p) :
    ∃ cb, fs.canon base = some cb ∧ pathStartsWith cb p = true ∧
      ∃ c ∈ [pathJoin mdDir s, pathJoin base s, s], fs.canon c = some p := by
  rw [tryResolveSpec] at h
  cases hb : fs.canon base with
  | none => rw [hb] at h; cases h
  | some cb =>
    rw [hb] at h
    obtain ⟨hst, c, hcmem, hcanon⟩ := firstAccepted_some h
    refine ⟨cb, rfl, hst, c, ?_, hcanon⟩
    rcases List.mem_append.mp hcmem with hm | hm
    · simp at hm
      rcases hm with hm | hm <;> simp [hm]
    · by_cases habs : isAbsolute s = true
      · rw [if_pos habs] at hm
        simp at hm
        simp [hm]
      · rw [if_neg habs] at hm
        cases hm

theorem resolveImagePath_some {fs : FileSystem} {raw : Str}
    {mdDir base p : FsPath} (h : resolveImagePath fs raw mdDir base = some p) :
    ∃ cb, fs.canon base = some cb ∧ pathStartsWith cb p = true ∧
      ∃ c, fs.canon c = some p := by
  rw [resolveImagePath_eq_spec, resolveImagePathSpec] at h
  cases h1 : tryResolveSpec fs (stripFragQuery (decodeOr raw)) mdDir base with
  | some q =>
    simp only [h1] at h
    cases h
    obtain ⟨cb, hb, hst, c, _, hcanon⟩ := tryResolveSpec_some h1
    exact ⟨cb, hb, hst, c, hcanon⟩
  | none =>
    simp only [h1] at h
    by_cases h2 : decodeOr raw = raw
    · simp [h2] at h
    · rw [if_pos (by simpa using h2)] at h
      obtain ⟨cb, hb, hst, c, _, hcanon⟩ := tryResolveSpec_some h
      exact ⟨cb, hb, hst, c, hcanon⟩

theorem processCaps_mem {fs : FileSystem} {caps : List Str}
    {mdDir base : FsPath} {acc : Finset FsPath} {p : FsPath}
    (h : p ∈ processCaps fs caps mdDir base acc) :
    p ∈ acc ∨ ∃ cap, refContribution fs cap mdDir base = some p := by
  induction caps generalizing acc with
  | nil => exact Or.inl h
  | cons c rest ih =>
    rw [processCaps, List.foldl_cons] at h
    rcases ih h with hin | hex
    · cases hres : refContribution fs c mdDir base with
      | some r =>
        rw [hres] at hin
        rcases Finset.mem_insert.mp hin with hp | hp
        · exact Or.inr ⟨c, hp ▸ hres⟩
        · exact Or.inl hp
      | none => rw [hres] at hin; exact Or.inl hin
    · exact Or.inr hex

/-- C4: every path returned by resolution is a canonicalization result and
starts with the canonicalized scan root; every member of an extracted
reference set does too; and a reference all of whose resolution candidates
canonicalize outside the scan root (or not at all) resolves to nothing. -/
theorem c4_in_scope_boundary :
    (∀ (fs : FileSystem) (s : Str) (mdDir base p : FsPath),
      tryResolvePath fs s mdDir base = some p →
      ∃ cb, fs.canon base = some cb ∧ pathStartsWith cb p = true ∧
        ∃ c ∈ [pathJoin mdDir s, pathJoin base s, s], fs.canon c = some p) ∧
    (∀ (fs : FileSystem) (raw : Str) (mdDir base p : FsPath),
      resolveImagePath fs raw mdDir base = some p →
      ∃ cb, fs.canon base = some cb ∧ pathStartsWith cb p = true ∧
        ∃ c, fs.canon c = some p) ∧
    (∀ (fs : FileSystem) (m base : FsPath) (refs : Finset FsPath) (p : FsPath),
      extractImageReferences fs m base = .ok refs → p ∈ refs →
      ∃ cb, fs.canon base = some cb ∧ pathStartsWith cb p = true) ∧
    (∀ (fs : FileSystem) (raw : Str) (mdDir base cb : FsPath),
      fs.canon base = some cb →
      (∀ s ∈ [stripFragQuery (decodeOr raw), stripFragQuery raw],
        ∀ c ∈ [pathJoin mdDir s, pathJoin base s, s],
        ∀ cc, fs.canon c = some cc → pathStartsWith cb cc = false) →
      resolveImagePath fs raw mdDir base = none) := by
  refine ⟨?_, ?_, ?_, ?_⟩
  · intro fs s mdDir base p h
    rw [tryResolvePath_eq_spec] at h
    exact tryResolveSpec_some h
  · intro fs raw mdDir base p h
    exact resolveImagePath_some h
  · intro fs m base refs p hok hp
    rw [extractImageReferences] at hok
    cases hread : fs.readFile m with
    | none => rw [hread] at hok; cases hok
    | some content =>
      rw [hread] at hok
      cases hok
      rcases processCaps_mem hp with hin | ⟨cap, hres⟩
      · rcases processCaps_mem hin with hin2 | ⟨cap, hres⟩
        · simp at hin2
        · rw [refContribution] at hres
          by_cases hurl : isUrl (trim cap) = true
          · simp [hurl] at hres
          · rw [if_neg hurl] at hres
            obtain ⟨cb, hb, hst, _⟩ := resolveImagePath_some hres
            exact ⟨cb, hb, hst⟩
      · rw [refContribution] at hres
        by_cases hurl : isUrl (trim cap) = true
        · simp [hurl] at hres
        · rw [if_neg hurl] at hres
          obtain ⟨cb, hb, hst, _⟩ := resolveImagePath_some hres
          exact ⟨cb, hb, hst⟩
  · intro fs raw mdDir base cb hb hout
    have htry : ∀ s ∈ [stripFragQuery (decodeOr raw), stripFragQuery raw],
        tryResolveSpec fs s mdDir base = none := by
      intro s hs
      rw [tryResolveSpec, hb]
      refine firstAccepted_none fun c hc cc hcanon => ?_
      refine hout s hs c ?_ cc hcanon
      rcases List.mem_append.mp hc with hm | hm
      · simp at hm
        rcases hm with hm | hm <;> simp [hm]
      · by_cases habs : isAbsolute s = true
        · rw [if_pos habs] at hm
          simp at hm
          simp [hm]
        · rw [if_neg habs] at hm
          cases hm
    have h1 := htry (stripFragQuery (decodeOr raw)) (by simp)
    have h3 := htry (stripFragQuery raw) (by simp)
    rw [resolveImagePath_eq_spec, resolveImagePathSpec]
    by_cases h2 : decodeOr raw = raw <;> simp [h1, h2, h3]

/-- A filesystem where the reference `../../outside/pic.png` escapes the
scan root: the joined candidate canonicalizes to `/outside/pic.png`, which
does not start with the canonical scan root `/r`. -/
def fsOut : FileSystem where
  canon := fun p =>
    if p = str "/r" then some (str "/r")
    else if p = str "/r/../../outside/pic.png" then
      some (str "/outside/pic.png")
    else none
  readFile := fun _ => none
  walkFiles := []

/-- C4 witness: a successful in-scope resolution on `fsA`, and the
scope-boundary case `![x](../../outside/pic.png)` resolving to nothing on
`fsOut`. -/
theorem c4_in_scope_boundary_witness :
    (∃ cb, fsA.canon (str "/r") = some cb ∧
      pathStartsWith cb (str "/r/a.png") = true ∧
      ∃ c, fsA.canon c = some (str "/r/a.png")) ∧
    resolveImagePath fsOut (str "../../outside/pic.png") (str "/r")
      (str "/r") = none := by
  constructor
  · exact c4_in_scope_boundary.2.1 fsA (str "a.png") (str "/r") (str "/r")
      (str "/r/a.png") (by decide)
  · refine c4_in_scope_boundary.2.2.2 fsOut (str "../../outside/pic.png")
      (str "/r") (str "/r") (str "/r") (by decide) ?_
    intro s hs c hc cc hcc
    have hD : ∀ s' ∈ [stripFragQuery (decodeOr (str "../../outside/pic.png")),
        stripFragQuery (str "../../outside/pic.png")],
        ∀ c' ∈ [pathJoin (str "/r") s', pathJoin (str "/r") s', s'],
        ((fsOut.canon c').all fun cc' => !pathStartsWith (str "/r") cc') =
          true := by decide
    have h2 := hD s hs c hc
    rw [hcc] at h2
    simpa using h2


/-! ## C5: URL-like references are never resolved -/

theorem dropWhile_of_head_false {p : Char → Bool} {l : Str}
    (h : ∀ c ∈ l, p c = false) : l.dropWhile p = l := by
  cases l with
  | nil => rfl
  | cons a t => simp [List.dropWhile_cons, h a (by simp)]

theorem dropWhile_append_nil {p : Char → Bool} {l1 : Str} (l2 : Str)
    (h : l1.dropWhile p = []) :
    (l1 ++ l2).dropWhile p = l2.dropWhile p := by
  induction l1 with
  | nil => rfl
  | cons a t ih =>
    rw [List.dropWhile_cons] at h
    by_cases hpa : p a = true
    · rw [if_pos hpa] at h
      rw [List.cons_append, List.dropWhile_cons, if_pos hpa]
      exact ih h
    · rw [if_neg hpa] at h
      cases h

theorem dropWhile_append_of_ne {p : Char → Bool} {l1 : Str} (l2 : Str)
    (h : l1.dropWhile p ≠ []) :
    (l1 ++ l2).dropWhile p = l1.dropWhile p ++ l2 := by
  induction l1 with
  | nil => exact absurd rfl h
  | cons a t ih =>
    rw [List.dropWhile_cons] at h ⊢
    by_cases hpa : p a = true
    · rw [if_pos hpa] at h ⊢
      rw [List.cons_append, List.dropWhile_cons, if_pos hpa]
      exact ih h
    · rw [if_neg hpa] at h ⊢
      rw [List.cons_append, List.dropWhile_cons, if_neg hpa]

/-- `str::trim` keeps any whitespace-free prefix of its argument. -/
theorem trim_keeps_nonws_front {pre raw : Str}
    (hw : ∀ c ∈ pre, isWs c = false) (h : pre <+: raw) : pre <+: trim raw := by
  rcases pre with _ | ⟨a, t⟩
  · exact List.nil_prefix
  · obtain ⟨rest, hraw⟩ := h
    subst hraw
    rw [trim]
    have hfront : ((a :: t) ++ rest).dropWhile isWs = (a :: t) ++ rest := by
      simp [List.dropWhile_cons, hw a (by simp)]
    rw [hfront, List.reverse_append]
    cases hdrop : rest.reverse.dropWhile isWs with
    | nil =>
      rw [dropWhile_append_nil _ hdrop,
        dropWhile_of_head_false (fun c hc => hw c (by
          simp only [List.mem_reverse] at hc
          exact hc)),
        List.reverse_reverse]
    | cons b bs =>
      rw [dropWhile_append_of_ne _ (by rw [hdrop]; simp), hdrop,
        List.reverse_append, List.reverse_reverse]
      exact List.prefix_append _ _

/-- C5: a reference beginning with `http://`, `https://`, `//` or `data:`
contributes nothing: its per-capture processing returns nothing without
consulting the filesystem (the result is the same for every filesystem),
and removing such a capture from an extraction loop leaves the accumulated
reference set unchanged, so it never protects any local file. -/
theorem c5_url_references_resolve_to_nothing (raw : Str)
    (h : (str "http://").isPrefixOf raw = true ∨
      (str "https://").isPrefixOf raw = true ∨
      (str "//").isPrefixOf raw = true ∨
      (str "data:").isPrefixOf raw = true) :
    (∀ (fs : FileSystem) (mdDir base : FsPath),
      refContribution fs raw mdDir base = none) ∧
    (∀ (fs fs2 : FileSystem) (mdDir base : FsPath),
      refContribution fs raw mdDir base = refContribution fs2 raw mdDir base) ∧
    (∀ (fs : FileSystem) (caps1 caps2 : List Str) (mdDir base : FsPath)
      (acc : Finset FsPath),
      processCaps fs (caps1 ++ raw :: caps2) mdDir base acc =
        processCaps fs (caps1 ++ caps2) mdDir base acc) := by
  have hurl : isUrl (trim raw) = true := by
    rw [isUrl]
    rcases h with h | h | h | h
    · have hb : (str "http://").isPrefixOf (trim raw) = true :=
        List.isPrefixOf_iff_prefix.mpr
          (trim_keeps_nonws_front (by decide) (List.isPrefixOf_iff_prefix.mp h))
      simp [hb]
    · have hb : (str "https://").isPrefixOf (trim raw) = true :=
        List.isPrefixOf_iff_prefix.mpr
          (trim_keeps_nonws_front (by decide) (List.isPrefixOf_iff_prefix.mp h))
      simp [hb]
    · have hb : (str "//").isPrefixOf (trim raw) = true :=
        List.isPrefixOf_iff_prefix.mpr
          (trim_keeps_nonws_front (by decide) (List.isPrefixOf_iff_prefix.mp h))
      simp [hb]
    · have hb : (str "data:").isPrefixOf (trim raw) = true :=
        List.isPrefixOf_iff_prefix.mpr
          (trim_keeps_nonws_front (by decide) (List.isPrefixOf_iff_prefix.mp h))
      simp [hb]
  have hnone : ∀ (fs : FileSystem) (mdDir base : FsPath),
      refContribution fs raw mdDir base = none := by
    intro fs mdDir base
    rw [refContribution]
    simp [hurl]
  refine ⟨hnone, fun fs fs2 mdDir base => by rw [hnone, hnone], ?_⟩
  intro fs caps1 caps2 mdDir base acc
  rw [processCaps, processCaps, List.foldl_append, List.foldl_append,
    List.foldl_cons, hnone]

/-- C5 witness: the spec's own example `https://example.com/a.png`
contributes nothing on the concrete filesystem and drops out of an
extraction loop. -/
theorem c5_url_references_resolve_to_nothing_witness :
    (str "https://").isPrefixOf (str "https://example.com/a.png") = true ∧
    refContribution fsA (str "https://example.com/a.png") (str "/r")
      (str "/r") = none ∧
    processCaps fsA [str "https://example.com/a.png"] (str "/r") (str "/r")
      ∅ = ∅ := by
  have h := c5_url_references_resolve_to_nothing
    (str "https://example.com/a.png") (Or.inr (Or.inl (by decide)))
  exact ⟨by decide, h.1 fsA (str "/r") (str "/r"),
    h.2.2 fsA [] [] (str "/r") (str "/r") ∅⟩



/-! ## C8: unreadable markdown files are skipped, not fatal -/

/-- C8: `extract_image_references` fails with a `ReadFile` error carrying
the offending path exactly when the file cannot be read; a markdown file
whose read fails contributes nothing to the referenced set (removing all
its occurrences from the accumulation list changes nothing), and hence the
scan's orphan list equals the one computed as if that file were absent
from the markdown list, every other file's contribution unchanged. -/
theorem c8_unreadable_file_skipped :
    (∀ (fs : FileSystem) (m base : FsPath),
      extractImageReferences fs m base = .error m ↔ fs.readFile m = none) ∧
    (∀ (fs : FileSystem) (base : FsPath) (l : List FsPath) (m : FsPath),
      fs.readFile m = none →
      referencedImages fs base l =
        referencedImages fs base (l.filter (· ≠ m))) ∧
    (∀ (iter : Finset FsPath → List FsPath) (fs : FileSystem)
      (cli : CliModel) (m : FsPath), fs.readFile m = none →
      scanForOrphans iter fs cli =
        iter (SDiff.sdiff (allImages fs (extensionList cli.extensions))
          (referencedImages fs cli.directory
            ((fs.walkFiles.filter isMarkdownFile).filter (· ≠ m))))) := by
  have hfold : ∀ (fs : FileSystem) (base m : FsPath), fs.readFile m = none →
      ∀ (l : List FsPath) (acc : Finset FsPath),
      l.foldl (refUnion fs base) acc =
        (l.filter (· ≠ m)).foldl (refUnion fs base) acc := by
    intro fs base m hread l
    induction l with
    | nil => intro acc; rfl
    | cons x xs ih =>
      intro acc
      by_cases hx : x = m
      · subst hx
        have hstep : refUnion fs base acc x = acc := by
          rw [refUnion, extractImageReferences, hread]
        rw [List.foldl_cons, hstep, List.filter_cons, if_neg (by simp)]
        exact ih acc
      · rw [List.foldl_cons, List.filter_cons, if_pos (by simp [hx]),
          List.foldl_cons]
        exact ih (refUnion fs base acc x)
  refine ⟨?_, ?_, ?_⟩
  · intro fs m base
    constructor
    · intro h
      cases hr : fs.readFile m with
      | none => rfl
      | some content => rw [extractImageReferences, hr] at h; cases h
    · intro h
      rw [extractImageReferences, h]
  · intro fs base l m hread
    rw [referencedImages, referencedImages]
    exact hfold fs base m hread l ∅
  · intro iter fs cli m hread
    have h2 : referencedImages fs cli.directory
        (fs.walkFiles.filter isMarkdownFile) =
        referencedImages fs cli.directory
          ((fs.walkFiles.filter isMarkdownFile).filter (· ≠ m)) := by
      rw [referencedImages, referencedImages]
      exact hfold fs cli.directory m hread _ ∅
    rw [scanForOrphans, h2]

/-- The witness world of `fsA` extended with an unreadable markdown file
`bad.md`. -/
def fsC : FileSystem where
  canon := canonA
  readFile := fun p =>
    if p = str "/r/doc.md" then some (str "![x](a.png)") else none
  walkFiles := [str "/r/a.png", str "/r/b.png", str "/r/doc.md",
    str "/r/bad.md"]

/-- C8 witness: `bad.md` cannot be read, extraction fails with exactly
that path, and the scan equals the scan without `bad.md`. -/
theorem c8_unreadable_file_skipped_witness :
    fsC.readFile (str "/r/bad.md") = none ∧
    extractImageReferences fsC (str "/r/bad.md") (str "/r") =
      .error (str "/r/bad.md") ∧
    scanForOrphans iterSorted fsC cliA =
      iterSorted (SDiff.sdiff (allImages fsC (extensionList cliA.extensions))
        (referencedImages fsC cliA.directory
          ((fsC.walkFiles.filter isMarkdownFile).filter
            (· ≠ str "/r/bad.md")))) :=
  ⟨by decide,
    (c8_unreadable_file_skipped.1 fsC (str "/r/bad.md") (str "/r")).mpr
      (by decide),
    c8_unreadable_file_skipped.2.2 iterSorted fsC cliA (str "/r/bad.md")
      (by decide)⟩

/-! ## C9: move-conflict renaming -/

theorem digitChar_toNat {d : Nat} (h : d < 10) : (digitChar d).toNat = 48 + d := by
  interval_cases d <;> decide

/-- Read a decimal digit string back into a number (proof device for the
injectivity of `natToStr`). -/
def valGo : Str → Nat → Nat
  | [], a => a
  | c :: t, a => valGo t (a * 10 + (c.toNat - 48))

theorem valGo_append (x y : Str) (a : Nat) :
    valGo (x ++ y) a = valGo y (valGo x a) := by
  induction x generalizing a with
  | nil => rfl
  | cons c t ih => rw [List.cons_append, valGo, valGo, ih]

theorem natToStrGo_append (fuel : Nat) :
    ∀ n acc, natToStr.natToStrGo fuel n acc =
      natToStr.natToStrGo fuel n [] ++ acc := by
  induction fuel with
  | zero => intro n acc; rfl
  | succ f ih =>
    intro n acc
    by_cases h : n < 10
    · rw [natToStr.natToStrGo, if_pos h, natToStr.natToStrGo, if_pos h]
      rfl
    · rw [natToStr.natToStrGo, if_neg h, natToStr.natToStrGo, if_neg h,
        ih (n / 10) (digitChar (n % 10) :: acc),
        ih (n / 10) (digitChar (n % 10) :: []), List.append_assoc]
      rfl

theorem valGo_natToStrGo (fuel : Nat) :
    ∀ n, n ≤ fuel → ∀ a, valGo (natToStr.natToStrGo fuel n []) a =
      a * 10 ^ (natToStr.natToStrGo fuel n []).length + n := by
  induction fuel with
  | zero =>
    intro n hn a
    interval_cases n
    rw [natToStr.natToStrGo, valGo, valGo,
      digitChar_toNat (by omega : (0 : Nat) < 10)]
    simp
  | succ f ih =>
    intro n hn a
    by_cases h : n < 10
    · rw [natToStr.natToStrGo, if_pos h, valGo, valGo, digitChar_toNat h]
      simp
    · have hfuel : n / 10 ≤ f := by omega
      rw [natToStr.natToStrGo, if_neg h, natToStrGo_append,
        valGo_append, valGo, valGo, ih _ hfuel,
        digitChar_toNat (Nat.mod_lt n (by omega)), List.length_append,
        List.length_singleton, Nat.add_sub_cancel_left, pow_succ,
        Nat.add_mul, Nat.add_assoc, Nat.div_add_mod', Nat.mul_assoc]

theorem valGo_natToStr (n : Nat) :
    ∀ a, valGo (natToStr n) a = a * 10 ^ (natToStr n).length + n :=
  valGo_natToStrGo n n (le_refl n)

theorem natToStr_injective {m n : Nat} (h : natToStr m = natToStr n) :
    m = n := by
  have hm := valGo_natToStr m 0
  have hn := valGo_natToStr n 0
  rw [h] at hm
  omega

theorem suffixName_inj {stem ext : Str} {m n : Nat}
    (h : suffixName stem ext m = suffixName stem ext n) : m = n := by
  rw [suffixName, suffixName] at h
  by_cases hext : ext = []
  · rw [if_pos hext, if_pos hext] at h
    have h2 := List.append_cancel_left h
    exact natToStr_injective (by injection h2)
  · rw [if_neg hext, if_neg hext] at h
    have h3 := List.append_cancel_right h
    have h4 := List.append_cancel_left h3
    exact natToStr_injective (by injection h4)

/-- The prefix `Path::join` prepends to a non-absolute argument. -/
def joinPre (b : FsPath) : FsPath :=
  if b = [] then [] else if b.getLast? = some '/' then b else b ++ ['/']

theorem pathJoin_not_abs (b : FsPath) {x : Str} (h : isAbsolute x = false) :
    pathJoin b x = joinPre b ++ x := by
  rw [pathJoin, joinPre, h]
  by_cases hb : b = []
  · simp [hb]
  · by_cases hl : b.getLast? = some '/'
    · simp [hb, hl]
    · simp [hb, hl]

theorem fileNameOf_no_slash (p : FsPath) : ∀ c ∈ fileNameOf p, c ≠ '/' := by
  intro c hc
  rw [fileNameOf, List.mem_reverse] at hc
  have := List.mem_takeWhile_imp hc
  simpa using this

theorem fileStemOf_no_slash (p : FsPath) : ∀ c ∈ fileStemOf p, c ≠ '/' := by
  intro c hc
  simp only [fileStemOf] at hc
  apply fileNameOf_no_slash p
  cases hext : extensionOf p with
  | some ext => rw [hext] at hc; exact List.mem_of_mem_take hc
  | none => rw [hext] at hc; exact hc

theorem suffixName_stem_not_abs (path : FsPath) (ext : Str) (m : Nat) :
    isAbsolute (suffixName (fileStemOf path) ext m) = false := by
  rw [suffixName]
  by_cases hext : ext = []
  · rw [if_pos hext]
    cases hstem : fileStemOf path with
    | nil => rfl
    | cons c t =>
      have : c ≠ '/' := fileStemOf_no_slash path c (by rw [hstem]; simp)
      simp [isAbsolute, this]
  · rw [if_neg hext]
    cases hstem : fileStemOf path with
    | nil => rfl
    | cons c t =>
      have : c ≠ '/' := fileStemOf_no_slash path c (by rw [hstem]; simp)
      simp [isAbsolute, this]

/-- The candidate destination `generate_unique_filename` probes for
counter `n`: the parent of the colliding target joined with
`stem_n.ext`. -/
def renameCandidate (target : FsPath) (n : Nat) : FsPath :=
  pathJoin ((parentOf target).getD [])
    (suffixName (fileStemOf target) ((extensionOf target).getD []) n)

theorem renameCandidate_injective (target : FsPath) :
    Function.Injective (renameCandidate target) := by
  intro m n h
  rw [renameCandidate, renameCandidate,
    pathJoin_not_abs _ (suffixName_stem_not_abs target _ m),
    pathJoin_not_abs _ (suffixName_stem_not_abs target _ n)] at h
  exact suffixName_inj (List.append_cancel_left h)

theorem genUniqueGo_spec (existing : List FsPath) (target : FsPath)
    (N : Nat) :
    ∀ fuel n, n ≤ N → N - n < fuel →
    (∀ k, n ≤ k → k < N → renameCandidate target k ∈ existing) →
    renameCandidate target N ∉ existing →
    genUniqueGo existing ((parentOf target).getD []) (fileStemOf target)
      ((extensionOf target).getD []) fuel n = renameCandidate target N := by
  intro fuel
  induction fuel with
  | zero => intro n _ h2 _ _; omega
  | succ f ih =>
    intro n h1 h2 hcoll hfree
    rw [genUniqueGo]
    by_cases hmem : renameCandidate target n ∈ existing
    · rw [if_pos (by exact hmem)]
      have hne : n ≠ N := fun he => hfree (he ▸ hmem)
      exact ih (n + 1) (by omega) (by omega)
        (fun k hk1 hk2 => hcoll k (by omega) hk2) hfree
    · rw [if_neg (by exact hmem)]
      have : n = N := by
        by_contra hne
        exact hmem (hcoll n (le_refl n) (by omega))
      rw [this, renameCandidate]

theorem generateUniqueFilename_eq (existing : List FsPath)
    (target : FsPath) (N : Nat) (h1 : 1 ≤ N)
    (hcoll : ∀ k, 1 ≤ k → k < N → renameCandidate target k ∈ existing)
    (hfree : renameCandidate target N ∉ existing) :
    generateUniqueFilename existing target = renameCandidate target N := by
  have hbound : N - 1 ≤ existing.length := by
    have hsub : (Finset.Ico 1 N).image (renameCandidate target) ⊆
        existing.toFinset := by
      refine Finset.image_subset_iff.mpr fun k hk => ?_
      rw [Finset.mem_Ico] at hk
      exact List.mem_toFinset.mpr (hcoll k hk.1 hk.2)
    have hc := Finset.card_le_card hsub
    rw [Finset.card_image_of_injective _ (renameCandidate_injective target),
      Nat.card_Ico] at hc
    exact hc.trans existing.toFinset_card_le
  exact genUniqueGo_spec existing target N (existing.length + 1) 1 h1
    (by omega) hcoll hfree

/-- C9: when the move destination `moveDir/filename` already exists, the
chosen destination is the original stem with `_N` inserted before the
extension, `N` being the least counter (starting at 1) whose candidate
name is absent from the target directory. -/
theorem c9_move_conflict_renaming (existing : List FsPath)
    (moveDir img target : FsPath) (N : Nat)
    (htarget : target = pathJoin moveDir (fileNameOf img))
    (hmem : target ∈ existing) (h1 : 1 ≤ N)
    (hcoll : ∀ k, 1 ≤ k → k < N → renameCandidate target k ∈ existing)
    (hfree : renameCandidate target N ∉ existing) :
    moveTargetFor existing moveDir img = renameCandidate target N := by
  rw [moveTargetFor, ← htarget, if_pos hmem]
  exact generateUniqueFilename_eq existing target N h1 hcoll hfree

/-- C9 witness: with `a.png` and `a_1.png` both present in `/t`, moving
another `a.png` there goes to `a_2.png`. -/
theorem c9_move_conflict_renaming_witness :
    moveTargetFor [str "/t/a.png", str "/t/a_1.png"] (str "/t")
      (str "/r/a.png") = str "/t/a_2.png" := by
  have h := c9_move_conflict_renaming
    [str "/t/a.png", str "/t/a_1.png"] (str "/t") (str "/r/a.png")
    (str "/t/a.png") 2 (by decide) (by decide) (by omega)
    (fun k hk1 hk2 => by
      have : k = 1 := by omega
      subst this
      decide)
    (by decide)
  rw [h]
  decide

/-! ## C6: markdown image target extraction

Reasoning principles for the backtracking combinators: where a lazy
quantifier's continuation fails at every shorter split of a run and
succeeds after the whole run, the first success is at the run; a greedy
quantifier whose continuation fails at every split it can reach returns
nothing, and succeeds immediately at a maximal run. -/

theorem lit_same {β} (c : Char) (l : List Char) (k : List Char → Option β) :
    lit c (c :: l) k = k l := by
  simp [lit]

theorem lit_diff {β} {c x : Char} (h : x ≠ c) (l : List Char)
    (k : List Char → Option β) : lit c (x :: l) k = none := by
  simp [lit, h]

theorem oneOf_same {β} {p : Char → Bool} {x : Char} (h : p x = true)
    (l : List Char) (k : List Char → Option β) : oneOf p (x :: l) k = k l := by
  simp [oneOf, h]

theorem oneOf_diff {β} {p : Char → Bool} {x : Char} (h : p x = false)
    (l : List Char) (k : List Char → Option β) : oneOf p (x :: l) k = none := by
  simp [oneOf, h]

theorem oneOf_none_of_all {β} {p : Char → Bool} {l : List Char}
    (h : ∀ c ∈ l, p c = false) (n : Nat) (k : List Char → Option β) :
    oneOf p (List.drop n l) k = none := by
  cases hd : List.drop n l with
  | nil => rfl
  | cons c r =>
    refine oneOf_diff (h c ?_) r k
    exact List.drop_subset n l (by rw [hd]; simp)

theorem lazyRunGo_found {β} (p : Char → Bool)
    (k : List Char → List Char → Option β) {rest : List Char} {b : β} :
    ∀ (a acc : List Char), (∀ c ∈ a, p c = true) →
    (∀ a1 a2, a = a1 ++ a2 → a2 ≠ [] →
      k (acc.reverse ++ a1) (a2 ++ rest) = none) →
    k (acc.reverse ++ a) rest = some b →
    lazyRunGo p k acc (a ++ rest) = some b := by
  intro a
  induction a with
  | nil =>
    intro acc _ _ hsucc
    rw [List.append_nil] at hsucc
    rw [List.nil_append]
    cases rest with
    | nil => rw [lazyRunGo]; exact hsucc
    | cons c r => rw [lazyRunGo, hsucc]
  | cons x xs ih =>
    intro acc hall hfail hsucc
    have h0 : k acc.reverse (x :: (xs ++ rest)) = none := by
      have := hfail [] (x :: xs) rfl (by simp)
      simpa using this
    rw [List.cons_append, lazyRunGo, h0, if_pos (hall x (by simp))]
    refine ih (x :: acc) (fun c hc => hall c (by simp [hc])) ?_ ?_
    · intro a1 a2 heq hne
      have := hfail (x :: a1) a2 (by rw [heq]; rfl) hne
      simpa [List.append_assoc] using this
    · have := hsucc
      simpa [List.append_assoc] using this

theorem lazyStar_found {β} (p : Char → Bool)
    (k : List Char → List Char → Option β) {a rest : List Char} {b : β}
    (hall : ∀ c ∈ a, p c = true)
    (hfail : ∀ a1 a2, a = a1 ++ a2 → a2 ≠ [] → k a1 (a2 ++ rest) = none)
    (hsucc : k a rest = some b) :
    lazyStar p (a ++ rest) k = some b := by
  rw [lazyStar]
  refine lazyRunGo_found p k a [] hall ?_ ?_
  · intro a1 a2 heq hne
    simpa using hfail a1 a2 heq hne
  · simpa using hsucc

theorem lazyPlus_found {β} (p : Char → Bool)
    (k : List Char → List Char → Option β) {a rest : List Char} {b : β}
    (ha : a ≠ []) (hall : ∀ c ∈ a, p c = true)
    (hfail : ∀ a1 a2, a = a1 ++ a2 → a1 ≠ [] → a2 ≠ [] →
      k a1 (a2 ++ rest) = none)
    (hsucc : k a rest = some b) :
    lazyPlus p (a ++ rest) k = some b := by
  cases a with
  | nil => exact absurd rfl ha
  | cons x xs =>
    rw [List.cons_append, lazyPlus, if_pos (hall x (by simp))]
    refine lazyRunGo_found p k xs [x] (fun c hc => hall c (by simp [hc]))
      ?_ ?_
    · intro a1 a2 heq hne
      have := hfail (x :: a1) a2 (by rw [heq]; rfl) (by simp) hne
      simpa using this
    · simpa using hsucc

/-- Length of the maximal front run of class characters. -/
def countRun (p : Char → Bool) : List Char → Nat
  | [] => 0
  | c :: rest => if p c then countRun p rest + 1 else 0

theorem greedyRunGo_none_run {β} (p : Char → Bool)
    (k : List Char → List Char → Option β) :
    ∀ (s acc : List Char),
    (∀ x n, n ≤ countRun p s → k x (List.drop n s) = none) →
    greedyRunGo p k acc s = none := by
  intro s
  induction s with
  | nil =>
    intro acc h
    rw [greedyRunGo]
    exact h acc.reverse 0 (by omega)
  | cons c rest ih =>
    intro acc h
    rw [greedyRunGo]
    by_cases hp : p c = true
    · rw [if_pos hp]
      have hrec := ih (c :: acc) fun x n hn => by
        have := h x (n + 1) (by rw [countRun, if_pos hp]; omega)
        simpa using this
      rw [hrec]
      simpa using h acc.reverse 0 (by omega)
    · rw [if_neg hp]
      simpa using h acc.reverse 0 (by omega)

theorem greedyPlus_none_run {β} (p : Char → Bool)
    (k : List Char → List Char → Option β) (s : List Char)
    (h : ∀ x n, n ≤ countRun p s → k x (List.drop n s) = none) :
    greedyPlus p s k = none := by
  cases s with
  | nil => rfl
  | cons c rest =>
    rw [greedyPlus]
    by_cases hp : p c = true
    · rw [if_pos hp]
      refine greedyRunGo_none_run p k rest [c] fun x n hn => ?_
      have := h x (n + 1) (by rw [countRun, if_pos hp]; omega)
      simpa using this
    · rw [if_neg hp]

theorem greedyRunGo_exact {β} (p : Char → Bool)
    (k : List Char → List Char → Option β) {rest : List Char} {b : β} :
    ∀ (a acc : List Char), (∀ c ∈ a, p c = true) →
    (∀ c r, rest = c :: r → p c = false) →
    k (acc.reverse ++ a) rest = some b →
    greedyRunGo p k acc (a ++ rest) = some b := by
  intro a
  induction a with
  | nil =>
    intro acc _ hstop hsucc
    rw [List.append_nil] at hsucc
    rw [List.nil_append]
    cases rest with
    | nil => rw [greedyRunGo]; exact hsucc
    | cons c r =>
      rw [greedyRunGo, if_neg (by simp [hstop c r rfl])]
      exact hsucc
  | cons x xs ih =>
    intro acc hall hstop hsucc
    rw [List.cons_append, greedyRunGo, if_pos (hall x (by simp))]
    have hrec := ih (x :: acc) (fun c hc => hall c (by simp [hc])) hstop
      (by simpa using hsucc)
    rw [hrec]

theorem greedyPlus_exact {β} (p : Char → Bool)
    (k : List Char → List Char → Option β) {a rest : List Char} {b : β}
    (ha : a ≠ []) (hall : ∀ c ∈ a, p c = true)
    (hstop : ∀ c r, rest = c :: r → p c = false)
    (hsucc : k a rest = some b) :
    greedyPlus p (a ++ rest) k = some b := by
  cases a with
  | nil => exact absurd rfl ha
  | cons x xs =>
    rw [List.cons_append, greedyPlus, if_pos (hall x (by simp))]
    exact greedyRunGo_exact p k xs [x]
      (fun c hc => hall c (by simp [hc])) hstop (by simpa using hsucc)

theorem countRun_append_lt {p : Char → Bool} :
    ∀ (l1 l2 : List Char), (∃ c ∈ l1, p c = false) →
    countRun p (l1 ++ l2) < l1.length := by
  intro l1
  induction l1 with
  | nil =>
    rintro l2 ⟨c, hc, _⟩
    simp at hc
  | cons x xs ih =>
    rintro l2 ⟨c, hc, hpc⟩
    rw [List.cons_append, countRun]
    by_cases hp : p x = true
    · rw [if_pos hp]
      have hcx : c ∈ xs := by
        rcases List.mem_cons.mp hc with rfl | h
        · rw [hp] at hpc; cases hpc
        · exact h
      have := ih l2 ⟨c, hcx, hpc⟩
      simp only [List.length_cons]
      omega
    · rw [if_neg hp]
      simp

theorem drop_head_mem {l1 l2 : List Char} {n : Nat} (h : n < l1.length) :
    ∃ c r, List.drop n (l1 ++ l2) = c :: r ∧ c ∈ l1 := by
  have hd : List.drop n (l1 ++ l2) = List.drop n l1 ++ l2 :=
    List.drop_append_of_le_length (le_of_lt h)
  cases hc : List.drop n l1 with
  | nil =>
    exfalso
    have := List.length_drop n l1
    rw [hc] at this
    simp at this
    omega
  | cons c r =>
    refine ⟨c, r ++ l2, by rw [hd, hc]; rfl, ?_⟩
    exact List.drop_subset n l1 (by rw [hc]; simp)

theorem imgAfterCapture_plain (cap : Str) :
    imgAfterCapture cap [')'] = some (cap, []) := rfl

theorem imgAfterCapture_none {cap : Str} {s6 : List Char}
    (hq : ∀ c ∈ s6, isQuote c = false)
    (hp : ∀ c r, s6 = c :: r → c ≠ ')') :
    imgAfterCapture cap s6 = none := by
  rw [imgAfterCapture]
  have ht : imgTitleTail cap s6 = none := by
    rw [imgTitleTail]
    exact greedyPlus_none_run isWs _ s6 fun x n _ => oneOf_none_of_all hq n _
  rw [ht]
  cases s6 with
  | nil => rfl
  | cons c r => exact lit_diff (hp c r rfl) _ _

theorem imgAfterCapture_none_blocked {cap : Str} {a2 R : List Char}
    (ha2 : a2 ≠ [])
    (hnq : ∀ c ∈ a2, isQuote c = false)
    (hnp : ∀ c ∈ a2, c ≠ ')')
    (hblock : ∃ c ∈ a2, isWs c = false) :
    imgAfterCapture cap (a2 ++ R) = none := by
  rw [imgAfterCapture]
  have hbound : countRun isWs (a2 ++ R) < a2.length :=
    countRun_append_lt a2 R hblock
  have ht : imgTitleTail cap (a2 ++ R) = none := by
    rw [imgTitleTail]
    refine greedyPlus_none_run isWs _ _ fun x n hn => ?_
    obtain ⟨c, r2, hdrop, hcm⟩ :=
      @drop_head_mem a2 R n (by omega)
    rw [hdrop]
    exact oneOf_diff (hnq c hcm) _ _
  rw [ht]
  cases a2 with
  | nil => exact absurd rfl ha2
  | cons c r =>
    rw [List.cons_append]
    exact lit_diff (hnp c (by simp)) _ _

theorem imgAfterCapture_title {cap ws title : Str} {q q2 : Char}
    (hws0 : ws ≠ []) (hws : ∀ c ∈ ws, isWs c = true)
    (hq : isQuote q = true) (hq2 : isQuote q2 = true)
    (hti1 : '"' ∉ title) (hti2 : '\'' ∉ title) (htin : '\n' ∉ title) :
    imgAfterCapture cap (ws ++ (q :: (title ++ (q2 :: [')'])))) =
      some (cap, []) := by
  rw [imgAfterCapture]
  have hqv : q = '"' ∨ q = '\'' := by simpa [isQuote] using hq
  have ht : imgTitleTail cap (ws ++ (q :: (title ++ (q2 :: [')'])))) =
      some (cap, []) := by
    rw [imgTitleTail]
    refine greedyPlus_exact isWs _ hws0 hws ?_ ?_
    · intro c r heq
      injection heq with h1 _
      subst h1
      rcases hqv with rfl | rfl <;> rfl
    · show oneOf isQuote (q :: (title ++ (q2 :: [')']))) _ = some (cap, [])
      rw [oneOf_same hq]
      refine lazyStar_found notNl _ (fun c hc => ?_)
        (fun a1 a2 heq hne => ?_) ?_
      · have : c ≠ '\n' := fun h => htin (h ▸ hc)
        simpa [notNl] using this
      · cases a2 with
        | nil => exact absurd rfl hne
        | cons c r =>
          show oneOf isQuote ((c :: r) ++ (q2 :: [')'])) _ = none
          rw [List.cons_append]
          refine oneOf_diff ?_ _ _
          have hcm : c ∈ title := by rw [heq]; simp
          simp only [isQuote]
          simp only [decide_eq_false_iff_not]
          push_neg
          exact ⟨fun h => hti1 (h ▸ hcm), fun h => hti2 (h ▸ hcm)⟩
      · show oneOf isQuote (q2 :: [')']) _ = some (cap, [])
        rw [oneOf_same hq2, lit_same]
  rw [ht]

theorem imgMatchAt_plain {alt t : Str}
    (halt1 : '\n' ∉ alt) (halt2 : ']' ∉ alt)
    (ht0 : t ≠ []) (ht1 : ')' ∉ t) (ht2 : '"' ∉ t) (ht3 : '\'' ∉ t) :
    imgMatchAt ('!' :: '[' :: (alt ++ (']' :: '(' :: (t ++ [')'])))) =
      some (t, []) := by
  rw [imgMatchAt, lit_same, lit_same]
  refine lazyStar_found notNl _ (fun c hc => ?_)
    (fun a1 a2 heq hne => ?_) ?_
  · have : c ≠ '\n' := fun h => halt1 (h ▸ hc)
    simpa [notNl] using this
  · cases a2 with
    | nil => exact absurd rfl hne
    | cons c r =>
      show imgBody ((c :: r) ++ (']' :: '(' :: (t ++ [')']))) = none
      rw [imgBody, List.cons_append]
      refine lit_diff ?_ _ _
      have hcm : c ∈ alt := by rw [heq]; simp
      exact fun h => halt2 (h ▸ hcm)
  · show imgBody (']' :: '(' :: (t ++ [')'])) = some (t, [])
    rw [imgBody, lit_same, lit_same]
    refine lazyPlus_found notParen _ ht0 (fun c hc => ?_)
      (fun a1 a2 heq h1 h2 => ?_) ?_
    · have : c ≠ ')' := fun h => ht1 (h ▸ hc)
      simpa [notParen] using this
    · cases a2 with
      | nil => exact absurd rfl h2
      | cons c r =>
        refine imgAfterCapture_none (fun x hx => ?_) (fun x r2 hxe => ?_)
        · rcases List.mem_append.mp hx with hx | hx
          · have hxm : x ∈ t := by rw [heq]; simp [hx]
            simp only [isQuote, decide_eq_false_iff_not]
            push_neg
            exact ⟨fun h => ht2 (h ▸ hxm), fun h => ht3 (h ▸ hxm)⟩
          · simp at hx
            subst hx
            rfl
        · rw [List.cons_append] at hxe
          injection hxe with hx _
          have hcm : c ∈ t := by rw [heq]; simp
          rw [← hx]
          exact fun h => ht1 (h ▸ hcm)
    · exact imgAfterCapture_plain t

theorem imgMatchAt_titled {alt t ws title : Str} {q q2 : Char}
    (halt1 : '\n' ∉ alt) (halt2 : ']' ∉ alt)
    (ht0 : t ≠ []) (ht1 : ')' ∉ t) (ht2 : '"' ∉ t) (ht3 : '\'' ∉ t)
    (htl : isWs (t.getLast ht0) = false)
    (hws0 : ws ≠ []) (hws : ∀ c ∈ ws, isWs c = true)
    (hq : isQuote q = true) (hq2 : isQuote q2 = true)
    (hti1 : '"' ∉ title) (hti2 : '\'' ∉ title) (htin : '\n' ∉ title) :
    imgMatchAt ('!' :: '[' :: (alt ++ (']' :: '(' ::
      (t ++ (ws ++ (q :: (title ++ (q2 :: [')'])))))))) = some (t, []) := by
  rw [imgMatchAt, lit_same, lit_same]
  refine lazyStar_found notNl _ (fun c hc => ?_)
    (fun a1 a2 heq hne => ?_) ?_
  · have : c ≠ '\n' := fun h => halt1 (h ▸ hc)
    simpa [notNl] using this
  · cases a2 with
    | nil => exact absurd rfl hne
    | cons c r =>
      show imgBody ((c :: r) ++ (']' :: '(' ::
        (t ++ (ws ++ (q :: (title ++ (q2 :: [')']))))))) = none
      rw [imgBody, List.cons_append]
      refine lit_diff ?_ _ _
      have hcm : c ∈ alt := by rw [heq]; simp
      exact fun h => halt2 (h ▸ hcm)
  · show imgBody (']' :: '(' ::
      (t ++ (ws ++ (q :: (title ++ (q2 :: [')'])))))) = some (t, [])
    rw [imgBody, lit_same, lit_same]
    refine lazyPlus_found notParen _ ht0 (fun c hc => ?_)
      (fun a1 a2 heq h1 h2 => ?_) ?_
    · have : c ≠ ')' := fun h => ht1 (h ▸ hc)
      simpa [notParen] using this
    · have hsub : ∀ x ∈ a2, x ∈ t := fun x hx => by rw [heq]; simp [hx]
      refine imgAfterCapture_none_blocked h2 (fun x hx => ?_)
        (fun x hx => ?_) ?_
      · have hxm := hsub x hx
        simp only [isQuote, decide_eq_false_iff_not]
        push_neg
        exact ⟨fun h => ht2 (h ▸ hxm), fun h => ht3 (h ▸ hxm)⟩
      · have hxm := hsub x hx
        exact fun h => ht1 (h ▸ hxm)
      · subst heq
        refine ⟨a2.getLast h2, List.getLast_mem h2, ?_⟩
        have hgl := List.getLast_append' a1 a2 h2
        rw [← hgl]
        exact htl
    · exact imgAfterCapture_title hws0 hws hq hq2 hti1 hti2 htin

theorem capturesGo_nil_input (m : Str → Option (Str × Str))
    (hm : m [] = none) : ∀ f, capturesGo m f [] = [] := by
  intro f
  cases f with
  | zero => rfl
  | succ g => rw [capturesGo, hm, capturesStep]

theorem imgCaptures_of_match {u t : Str} (h : imgMatchAt u = some (t, [])) :
    imgCaptures u = [t] := by
  rw [imgCaptures, capturesGo, h, capturesStep,
    capturesGo_nil_input imgMatchAt rfl]

/-- C6 counterexample: the claim says the extracted target is the text up
to the first *unescaped* `)`, but the pattern's capture class `[^)]+?`
knows no escapes and stops at the first `)` whatsoever.  In
`![x](a\\).png)` the first unescaped `)` is the final one, so the claimed
target is `a\\).png`, yet the code extracts `a\\`. -/
theorem c6_counterexample :
    imgCaptures (str "![x](a\\).png)") = [str "a\\"] ∧
    upToFirstUnescapedParen (str "a\\).png)") = str "a\\).png" ∧
    str "a\\" ≠ str "a\\).png" :=
  ⟨by decide, by decide, by decide⟩

/-- C6 (amended): for every markdown-image match of the form
`![alt](target)` or `![alt](target "title")`, the extracted target is the
text up to the first `)` — whether escaped or not, since backslash escapes
are not recognized — and a trailing quoted title segment separated from
the target by whitespace is excluded from the extracted target. -/
theorem c6_target_up_to_first_paren :
    (∀ alt t : Str, '\n' ∉ alt → ']' ∉ alt → t ≠ [] → ')' ∉ t →
      '"' ∉ t → '\'' ∉ t →
      imgCaptures ('!' :: '[' :: (alt ++ (']' :: '(' :: (t ++ [')'])))) =
        [t]) ∧
    (∀ (alt t ws title : Str) (q q2 : Char) (halt1 : '\n' ∉ alt)
      (halt2 : ']' ∉ alt) (ht0 : t ≠ []) (ht1 : ')' ∉ t) (ht2 : '"' ∉ t)
      (ht3 : '\'' ∉ t) (htl : isWs (t.getLast ht0) = false)
      (hws0 : ws ≠ []) (hws : ∀ c ∈ ws, isWs c = true)
      (hq : isQuote q = true) (hq2 : isQuote q2 = true)
      (hti1 : '"' ∉ title) (hti2 : '\'' ∉ title) (htin : '\n' ∉ title),
      imgCaptures ('!' :: '[' :: (alt ++ (']' :: '(' ::
        (t ++ (ws ++ (q :: (title ++ (q2 :: [')']))))))))  = [t]) := by
  constructor
  · intro alt t h1 h2 h3 h4 h5 h6
    exact imgCaptures_of_match (imgMatchAt_plain h1 h2 h3 h4 h5 h6)
  · intro alt t ws title q q2 h1 h2 h3 h4 h5 h6 h7 h8 h9 h10 h11 h12 h13 h14
    exact imgCaptures_of_match
      (imgMatchAt_titled h1 h2 h3 h4 h5 h6 h7 h8 h9 h10 h11 h12 h13 h14)

/-- C6 (amended) witness: the plain form on `![x](a.png)` and the titled
form on `![x](a.png "my title")`. -/
theorem c6_target_up_to_first_paren_witness :
    imgCaptures (str "![x](a.png)") = [str "a.png"] ∧
    imgCaptures (str "![x](a.png \"my title\")") = [str "a.png"] := by
  constructor
  · have h := c6_target_up_to_first_paren.1 (str "x") (str "a.png")
      (by decide) (by decide) (by decide) (by decide) (by decide) (by decide)
    rw [show str "![x](a.png)" = '!' :: '[' :: ((str "x") ++
      (']' :: '(' :: ((str "a.png") ++ [')']))) from by decide]
    exact h
  · have h := c6_target_up_to_first_paren.2 (str "x") (str "a.png")
      (str " ") (str "my title") '"' '"'
      (by decide) (by decide) (by decide) (by decide) (by decide) (by decide)
      (by decide) (by decide) (by decide) (by decide) (by decide)
      (by decide) (by decide) (by decide)
    rw [show str "![x](a.png \"my title\")" = '!' :: '[' :: ((str "x") ++
      (']' :: '(' :: ((str "a.png") ++ ((str " ") ++ ('"' ::
        ((str "my title") ++ ('"' :: [')']))))))) from by decide]
    exact h

end MdPrune
